import Mathlib

/-!
Verification development for the character-level HMM spelling fixer
(`spelling_fixer.py`).  The Python source is shallowly embedded:

* probabilities are modelled exactly as rationals (the Python floats are
  IEEE doubles; the structural claims under scrutiny concern the exact
  arithmetic formulas, which we render in `ℚ`),
* log-space Viterbi scores are modelled over the reals, with
  `Real.log` for `math.log` and the sentinel `-1e9` for `LOG_ZERO`,
* the Viterbi recursion, being pure bookkeeping over an ordered score
  type, is embedded generically over a `LinearOrder`, and instantiated
  at `ℝ` with `safeLog` for the actual pipeline,
* the training loop's mutable counters become an explicit `Counts`
  state threaded through a fold over the corpus entries,
* code that can raise (the backtracking loop joins `None` backpointers
  when every candidate score is at or below the sentinel) returns
  `Option`, with `none` denoting the raised exception.
-/

namespace SpellFixer

/-- `alphabet = list("abcdefghijklmnopqrstuvwxyz'")` from
`build_hmm_from_aspell`; `Char.ofNat 39` is the apostrophe (U+0027). -/
def alphabet : List Char := "abcdefghijklmnopqrstuvwxyz".toList ++ [Char.ofNat 39]

/-- `[c for c in s if c in alphabet]` (no lowercasing; the training code
lowercases each line before it is split into words). -/
def filterAlpha (s : String) : List Char :=
  s.toList.filter (fun c => decide (c ∈ alphabet))

/-- `[c for c in observations.lower() if c in alphabet]` from `viterbi`. -/
def obsOf (w : String) : List Char :=
  (w.toList.map Char.toLower).filter (fun c => decide (c ∈ alphabet))

/-! ### Training counters (lines 22-66)

`emission_counts`, `transition_counts`, `start_counts` are defaultdict /
Counter objects: total functions into `ℕ`, zero by default. -/

structure Counts where
  emission : Char → Char → ℕ
  transition : Char → Char → ℕ
  start : Char → ℕ

def initCounts : Counts := ⟨fun _ _ => 0, fun _ _ => 0, fun _ => 0⟩

/-- A single `counter[a][b] += 1` update. -/
def bump2 (f : Char → Char → ℕ) (a b : Char) : Char → Char → ℕ :=
  fun x y => if x = a ∧ y = b then f x y + 1 else f x y

/-- A run of `counter[p.1][p.2] += 1` updates, one per listed pair. -/
def bumpPairs (f : Char → Char → ℕ) (ps : List (Char × Char)) : Char → Char → ℕ :=
  ps.foldl (fun g p => bump2 g p.1 p.2) f

/-- A single `counter[a] += 1` update. -/
def bump1 (f : Char → ℕ) (a : Char) : Char → ℕ :=
  fun x => if x = a then f x + 1 else f x

/-- Lines 50-59: one iteration of `for typo in typos`: filter the typo,
and only if the filtered lengths agree, count every aligned position. -/
def addTypo (cl : List Char) (em : Char → Char → ℕ) (typo : String) :
    Char → Char → ℕ :=
  let tl := filterAlpha typo
  if cl.length = tl.length then bumpPairs em (cl.zip tl) else em

/-- Lines 44-66: process one corpus entry `correct_word: typo1 typo2 ...`.
An entry whose filtered correct word is empty is skipped whole.  The
adjacent pairs of `c :: rest` are `(c :: rest).zip rest`. -/
def processEntry (st : Counts) (w : String) (typos : List String) : Counts :=
  match filterAlpha w with
  | [] => st
  | c :: rest =>
      { emission := typos.foldl (addTypo (c :: rest)) st.emission
        transition := bumpPairs st.transition ((c :: rest).zip rest)
        start := bump1 st.start c }

/-- The whole training pass: the corpus is the already-parsed list of
(correct word, typo list) pairs, lowercased by the line reader. -/
def trainCounts (corpus : List (String × List String)) : Counts :=
  corpus.foldl (fun st e => processEntry st e.1 e.2) initCounts

/-! ### Probability tables (lines 68-108) -/

/-- `smoothing = 0.01`. -/
def smoothing : ℚ := 1 / 100

/-- `sum(emission_counts[c].values()) + V * smoothing`.  The Counter's
support is contained in `alphabet` (only filtered characters are ever
incremented), so the value sum equals the sum over the alphabet. -/
def rowE (cnt : Counts) (c : Char) : ℚ :=
  (alphabet.map (fun t => (cnt.emission c t : ℚ))).sum
    + (alphabet.length : ℚ) * smoothing

/-- Lines 73-84: emission probability, with the diagonal boost of 5
added to the count (after the row total has been taken). -/
def buildE (cnt : Counts) (c t : Char) : ℚ :=
  (((cnt.emission c t : ℚ) + (if c = t then 5 else 0)) + smoothing) / rowE cnt c

/-- `sum(transition_counts[c].values()) + V * smoothing`. -/
def rowT (cnt : Counts) (c : Char) : ℚ :=
  (alphabet.map (fun t => (cnt.transition c t : ℚ))).sum
    + (alphabet.length : ℚ) * smoothing

/-- Lines 87-93: transition probability. -/
def buildT (cnt : Counts) (c t : Char) : ℚ :=
  ((cnt.transition c t : ℚ) + smoothing) / rowT cnt c

/-- `sum(start_counts.values()) + V * smoothing`. -/
def rowS (cnt : Counts) : ℚ :=
  (alphabet.map (fun c => (cnt.start c : ℚ))).sum
    + (alphabet.length : ℚ) * smoothing

/-- Lines 96-100: start probability. -/
def buildS (cnt : Counts) (c : Char) : ℚ :=
  ((cnt.start c : ℚ) + smoothing) / rowS cnt

/-- The trained model: the three tables of `build_hmm_from_aspell`'s
result dict, generic in the number type (`ℚ` for the exact tables, `ℝ`
once scores enter log space). -/
structure HMMg (α : Type) where
  E : Char → Char → α
  T : Char → Char → α
  start : Char → α

/-- `build_hmm_from_aspell`, for an already-parsed corpus. -/
def buildHMM (corpus : List (String × List String)) : HMMg ℚ :=
  let cnt := trainCounts corpus
  ⟨buildE cnt, buildT cnt, buildS cnt⟩

/-! ### The Viterbi decoder (lines 110-166)

The decoder only adds and compares scores, so it is embedded over any
linear order; the pipeline instantiates it at `ℝ` with `safeLog`.
`lz` stands for the `LOG_ZERO` sentinel and `lg` for `safe_log`. -/

/-- Lines 138-150: the inner `for prev_state in alphabet` loop.  The
accumulator starts at `(LOG_ZERO, None)` and is replaced only on a
strict improvement (`val > max_val`), so the first maximum wins. -/
def pickMax {α : Type} [LinearOrder α] (f : Char → α) (init : α × Option Char)
    (l : List Char) : α × Option Char :=
  l.foldl (fun b x => if b.1 < f x then (f x, some x) else b) init

/-- Python's `max(keys, key=f)`: start from the first key, replace only
on strict improvement. -/
def maxKey {α : Type} [LinearOrder α] (f : Char → α) (c0 : Char) (l : List Char) :
    Char :=
  l.foldl (fun b x => if f b < f x then x else b) c0

/-- Line 144-146: the candidate value
`M[time-1][prev] + safe_log(T[prev][state]) + safe_log(E[state][O[time]])`,
as a function of `prev`, where `f` is the previous score column. -/
def vVal {α : Type} [Add α] (lg : α → α) (m : HMMg α) (f : Char → α)
    (s o : Char) : Char → α :=
  fun p => f p + lg (m.T p s) + lg (m.E s o)

/-- The score table `M`: line 132 for time 0, lines 136-152 for the
recursion.  `O.getD t` is `O[t]` (the code only reads `t < len(O)`). -/
def vM {α : Type} [LinearOrder α] [Add α] (lz : α) (lg : α → α) (m : HMMg α)
    (O : List Char) : ℕ → Char → α
  | 0, s => lg (m.start s) + lg (m.E s (O.getD 0 'a'))
  | t + 1, s =>
      (pickMax (vVal lg m (vM lz lg m O t) s (O.getD (t + 1) 'a'))
        (lz, none) alphabet).1

/-- The backpointer table: `None` at time 0 (line 133), the second
component of the inner loop's accumulator afterwards (line 153). -/
def vBP {α : Type} [LinearOrder α] [Add α] (lz : α) (lg : α → α) (m : HMMg α)
    (O : List Char) : ℕ → Char → Option Char
  | 0, _ => none
  | t + 1, s =>
      (pickMax (vVal lg m (vM lz lg m O t) s (O.getD (t + 1) 'a'))
        (lz, none) alphabet).2

/-- Lines 158-165: follow backpointers from time `t` down to 0 and
produce the path in forward order.  A `None` backpointer makes the
Python loop append `None` and then either index a dict with `None` or
join `None` — an exception either way, rendered here as `none`. -/
def backtrack {α : Type} [LinearOrder α] [Add α] (lz : α) (lg : α → α)
    (m : HMMg α) (O : List Char) : ℕ → Char → Option (List Char)
  | 0, b => some [b]
  | t + 1, b =>
      match vBP lz lg m O (t + 1) b with
      | none => none
      | some p => (backtrack lz lg m O t p).map (fun path => path ++ [b])

/-- Line 156: `max(M[t-1], key=M[t-1].get)`.  The dict keys are in
insertion order, i.e. alphabet order, so the scan starts at `'a'`. -/
def maxKeyAll {α : Type} [LinearOrder α] (f : Char → α) : Char :=
  maxKey f 'a' alphabet.tail

/-- `viterbi(observations, hmm)` (lines 111-166): empty-filtered
fallback, score/backpointer tables, termination, backtracking, join. -/
def viterbi {α : Type} [LinearOrder α] [Add α] (lz : α) (lg : α → α)
    (m : HMMg α) (w : String) : Option String :=
  if obsOf w = [] then some w
  else
    (backtrack lz lg m (obsOf w) ((obsOf w).length - 1)
      (maxKeyAll (vM lz lg m (obsOf w) ((obsOf w).length - 1)))).map String.mk

/-- Python's `text.split()`: maximal runs of non-whitespace characters,
empty tokens dropped. -/
def wordsAux (l : List Char) : List (List Char) :=
  match l with
  | [] => []
  | c :: rest =>
      if c.isWhitespace then wordsAux rest
      else (c :: rest.takeWhile (fun d => !d.isWhitespace))
        :: wordsAux (rest.dropWhile (fun d => !d.isWhitespace))
termination_by l.length
decreasing_by
  all_goals simp_wf
  all_goals
    have := (List.dropWhile_sublist (l := rest) (fun d => !d.isWhitespace)).length_le
    omega

def pyWords (s : String) : List String :=
  (wordsAux s.toList).map String.mk

/-- `correct_sentence` (lines 169-175): split, decode each word in
order, rejoin with single spaces.  An exception in any `viterbi` call
propagates (the fold stays `none`). -/
def correctSentence {α : Type} [LinearOrder α] [Add α] (lz : α) (lg : α → α)
    (m : HMMg α) (text : String) : Option String :=
  ((pyWords text).foldl
      (fun acc w => acc.bind fun l => (viterbi lz lg m w).map (fun cw => l ++ [cw]))
      (some [])).map
    (fun l => String.intercalate " " l)

/-! ### The real-number pipeline: `LOG_ZERO`, `safe_log` (lines 8-15) -/

/-- `LOG_ZERO = -1e9` (the float `1e9` is exactly `10^9`). -/
noncomputable def LOG_ZERO : ℝ := -(10 ^ 9)

/-- `safe_log` (lines 12-15): the sentinel for `x <= 0`, `math.log x`
otherwise. -/
noncomputable def safeLog (x : ℝ) : ℝ :=
  if x ≤ 0 then LOG_ZERO else Real.log x

/-- The decoder as the code runs it: real scores, `safe_log`. -/
noncomputable def viterbiR (m : HMMg ℝ) (w : String) : Option String :=
  viterbi LOG_ZERO safeLog m w

/-- The sentence corrector as the code runs it. -/
noncomputable def correctSentenceR (m : HMMg ℝ) (text : String) : Option String :=
  correctSentence LOG_ZERO safeLog m text

/-- The condition under which every inner-loop maximum at a recursion
step strictly beats the `LOG_ZERO` sentinel the accumulator starts
from.  When it fails, the loop leaves `best_prev = None` and the code
later raises while backtracking. -/
def StallFree {α : Type} [LinearOrder α] [Add α] (lz : α) (lg : α → α)
    (m : HMMg α) (O : List Char) : Prop :=
  ∀ t, t + 1 < O.length → ∀ s ∈ alphabet, ∃ p ∈ alphabet,
    lz < vVal lg m (vM lz lg m O t) s (O.getD (t + 1) 'a') p

/-- A degenerate but well-typed model whose probabilities are all 1:
all `safe_log` values are 0, so no score ever stalls at the sentinel. -/
noncomputable def mOnes : HMMg ℝ := ⟨fun _ _ => 1, fun _ _ => 1, fun _ => 1⟩

/-- A model whose probabilities all equal `exp(-1e9)`: positive, so
`safe_log` is the true logarithm `-1e9`, yet every recursion candidate
is `4 * (-1e9)`, strictly below the sentinel the loop starts from. -/
noncomputable def mTiny : HMMg ℝ :=
  ⟨fun _ _ => Real.exp LOG_ZERO, fun _ _ => Real.exp LOG_ZERO,
    fun _ => Real.exp LOG_ZERO⟩

/-- The 26 uppercase ASCII letters. -/
def upperLetters : List Char := "ABCDEFGHIJKLMNOPQRSTUVWXYZ".toList

/-! ## Facts about the smoothed tables -/

lemma alphabet_length : alphabet.length = 27 := by decide

lemma alphabet_nodup : alphabet.Nodup := by decide

lemma sum_map_div (l : List Char) (g : Char → ℚ) (d : ℚ) :
    (l.map (fun t => g t / d)).sum = (l.map g).sum / d := by
  induction l with
  | nil => simp
  | cons x xs ih => simp [ih, add_div]

lemma sum_map_add (l : List Char) (f g : Char → ℚ) :
    (l.map (fun t => f t + g t)).sum = (l.map f).sum + (l.map g).sum := by
  induction l with
  | nil => simp
  | cons x xs ih =>
    simp only [List.map_cons, List.sum_cons, ih]
    ring

lemma sum_map_add_const (l : List Char) (g : Char → ℚ) (s : ℚ) :
    (l.map (fun t => g t + s)).sum = (l.map g).sum + l.length * s := by
  induction l with
  | nil => simp
  | cons x xs ih =>
    simp only [List.map_cons, List.sum_cons, ih, List.length_cons]
    push_cast
    ring

lemma sum_smoothed (l : List Char) (g : Char → ℚ) (R : ℚ) :
    (l.map (fun t => (g t + smoothing) / R)).sum
      = ((l.map g).sum + l.length * smoothing) / R := by
  rw [sum_map_div l (fun t => g t + smoothing) R, sum_map_add_const]

lemma sum_boost_not_mem (l : List Char) (c : Char) (hc : c ∉ l) :
    (l.map (fun t => if c = t then (5 : ℚ) else 0)).sum = 0 := by
  induction l with
  | nil => simp
  | cons x xs ih =>
    simp only [List.map_cons, List.sum_cons]
    rw [if_neg (by rintro rfl; exact hc (List.mem_cons_self ..)),
      ih (fun h => hc (List.mem_cons_of_mem _ h))]
    simp

lemma sum_boost (l : List Char) (c : Char) (hl : l.Nodup) (hc : c ∈ l) :
    (l.map (fun t => if c = t then (5 : ℚ) else 0)).sum = 5 := by
  induction l with
  | nil => cases hc
  | cons x xs ih =>
    simp only [List.map_cons, List.sum_cons]
    rcases List.mem_cons.mp hc with rfl | hmem
    · rw [if_pos rfl, sum_boost_not_mem xs c (List.nodup_cons.mp hl).1]
      simp
    · have hx : ¬ c = x := fun h => (List.nodup_cons.mp hl).1 (h ▸ hmem)
      rw [if_neg hx, ih (List.nodup_cons.mp hl).2 hmem]
      simp

lemma sum_cast_nonneg (l : List Char) (g : Char → ℕ) :
    0 ≤ (l.map (fun t => (g t : ℚ))).sum := by
  apply List.sum_nonneg
  intro x hx
  rw [List.mem_map] at hx
  obtain ⟨t, -, rfl⟩ := hx
  positivity

lemma row_pos (l : List Char) (g : Char → ℕ) (hl : l = alphabet) :
    0 < (l.map (fun t => (g t : ℚ))).sum + (l.length : ℚ) * smoothing := by
  have h1 := sum_cast_nonneg l g
  have h2 : (l.length : ℚ) * smoothing = 27 / 100 := by
    rw [hl, alphabet_length, smoothing]; norm_num
  rw [h2]
  linarith

lemma rowE_pos (cnt : Counts) (c : Char) : 0 < rowE cnt c :=
  row_pos alphabet (cnt.emission c) rfl

lemma rowT_pos (cnt : Counts) (c : Char) : 0 < rowT cnt c :=
  row_pos alphabet (cnt.transition c) rfl

lemma rowS_pos (cnt : Counts) : 0 < rowS cnt :=
  row_pos alphabet cnt.start rfl

/-- Each transition row sums exactly to 1. -/
lemma sum_buildT (cnt : Counts) (c : Char) :
    (alphabet.map (fun t => buildT cnt c t)).sum = 1 := by
  unfold buildT
  rw [sum_smoothed alphabet (fun t => (cnt.transition c t : ℚ)) (rowT cnt c)]
  exact div_self (ne_of_gt (rowT_pos cnt c))

/-- The start distribution sums exactly to 1. -/
lemma sum_buildS (cnt : Counts) :
    (alphabet.map (fun c => buildS cnt c)).sum = 1 := by
  unfold buildS
  rw [sum_smoothed alphabet (fun c => (cnt.start c : ℚ)) (rowS cnt)]
  exact div_self (ne_of_gt (rowS_pos cnt))

/-- Each emission row sums to `(total + 5) / total`: the diagonal boost
is added after the row total has been computed, so the row exceeds 1 by
exactly `5 / total`. -/
lemma sum_buildE (cnt : Counts) (c : Char) (hc : c ∈ alphabet) :
    (alphabet.map (fun t => buildE cnt c t)).sum = 1 + 5 / rowE cnt c := by
  unfold buildE
  rw [sum_smoothed alphabet
    (fun t => (cnt.emission c t : ℚ) + (if c = t then 5 else 0)) (rowE cnt c)]
  have hsplit :
      (alphabet.map
        (fun t => (cnt.emission c t : ℚ) + (if c = t then 5 else 0))).sum
        = (alphabet.map (fun t => (cnt.emission c t : ℚ))).sum + 5 := by
    rw [sum_map_add alphabet (fun t => (cnt.emission c t : ℚ))
      (fun t => if c = t then 5 else 0),
      sum_boost alphabet c alphabet_nodup hc]
  rw [hsplit]
  have hrow : (alphabet.map (fun t => (cnt.emission c t : ℚ))).sum + 5
      + (alphabet.length : ℚ) * smoothing = rowE cnt c + 5 := by
    unfold rowE; ring
  rw [hrow, add_div, div_self (ne_of_gt (rowE_pos cnt c))]

/-- The typo fold only uses typos whose filtered length matches. -/
lemma foldl_addTypo_filter (cl : List Char) (em : Char → Char → ℕ)
    (typos : List String) :
    typos.foldl (addTypo cl) em
      = (typos.filter
          (fun ty => decide (cl.length = (filterAlpha ty).length))).foldl
          (addTypo cl) em := by
  induction typos generalizing em with
  | nil => rfl
  | cons ty rest ih =>
    by_cases hlen : cl.length = (filterAlpha ty).length
    · rw [List.filter_cons_of_pos (by simpa using hlen)]
      simp only [List.foldl_cons]
      exact ih _
    · rw [List.filter_cons_of_neg (by simpa using hlen)]
      simp only [List.foldl_cons]
      have hskip : addTypo cl em ty = em := by
        unfold addTypo
        exact if_neg hlen
      rw [hskip]
      exact ih em

/-! ## Claims about training (C1, C2, C4, C5) -/

/-- Claim C1, amended.  For the model built from any corpus, the
transition rows and the start distribution each sum exactly to 1, but
an emission row sums to `1 + 5 / rowtotal` (strictly more than 1): the
diagonal bonus of 5 is added after the row total is taken, so emission
rows are not normalized. -/
theorem claim_c1 (corpus : List (String × List String)) (s : Char)
    (hs : s ∈ alphabet) :
    (alphabet.map (fun t => (buildHMM corpus).T s t)).sum = 1 ∧
    (alphabet.map (fun c => (buildHMM corpus).start c)).sum = 1 ∧
    (alphabet.map (fun t => (buildHMM corpus).E s t)).sum
      = 1 + 5 / rowE (trainCounts corpus) s ∧
    1 < (alphabet.map (fun t => (buildHMM corpus).E s t)).sum := by
  refine ⟨sum_buildT (trainCounts corpus) s, sum_buildS (trainCounts corpus),
    sum_buildE (trainCounts corpus) s hs, ?_⟩
  have h := sum_buildE (trainCounts corpus) s hs
  have hpos : 0 < 5 / rowE (trainCounts corpus) s :=
    div_pos (by norm_num) (rowE_pos (trainCounts corpus) s)
  show 1 < (alphabet.map (fun t => buildE (trainCounts corpus) s t)).sum
  rw [h]
  linarith

theorem claim_c1_witness :
    'a' ∈ alphabet ∧
    ((alphabet.map (fun t => (buildHMM []).T 'a' t)).sum = 1 ∧
     (alphabet.map (fun c => (buildHMM []).start c)).sum = 1 ∧
     (alphabet.map (fun t => (buildHMM []).E 'a' t)).sum
       = 1 + 5 / rowE (trainCounts []) 'a' ∧
     1 < (alphabet.map (fun t => (buildHMM []).E 'a' t)).sum) :=
  ⟨by decide, claim_c1 [] 'a' (by decide)⟩

/-- Claim C1 is false as stated: after training on the empty corpus the
emission row of `'a'` sums to `527 / 27`, which is not within `1e-9`
of 1. -/
theorem claim_c1_counterexample :
    ¬ |(alphabet.map (fun t => (buildHMM []).E 'a' t)).sum - 1| ≤ 1 / 10 ^ 9 := by
  have hrow : rowE (trainCounts []) 'a' = 27 / 100 := by
    unfold rowE
    have hz : (alphabet.map (fun t => ((trainCounts []).emission 'a' t : ℚ))).sum
        = 0 := by
      simp [trainCounts, initCounts]
    rw [hz, alphabet_length, smoothing]
    norm_num
  have h := sum_buildE (trainCounts []) 'a' (by decide)
  rw [hrow] at h
  show ¬ |(alphabet.map (fun t => buildE (trainCounts []) 'a' t)).sum - 1|
    ≤ 1 / 10 ^ 9
  rw [h, show (1 : ℚ) + 5 / (27 / 100) - 1 = 500 / 27 by norm_num,
    abs_of_pos (by norm_num : (0 : ℚ) < 500 / 27)]
  norm_num

/-- Claim C2, amended.  Every table entry is strictly positive; a
zero-count transition, start, or off-diagonal emission pair gets
exactly the smoothing floor `α / (total + |alphabet|·α)`; but a
zero-count diagonal emission pair gets `(5 + α) / (total + |alphabet|·α)`
because of the diagonal bonus. -/
theorem claim_c2 (corpus : List (String × List String)) (c t : Char) :
    (0 < (buildHMM corpus).T c t ∧ 0 < (buildHMM corpus).start c ∧
      0 < (buildHMM corpus).E c t) ∧
    ((trainCounts corpus).transition c t = 0 →
      (buildHMM corpus).T c t = smoothing / rowT (trainCounts corpus) c) ∧
    ((trainCounts corpus).start c = 0 →
      (buildHMM corpus).start c = smoothing / rowS (trainCounts corpus)) ∧
    ((trainCounts corpus).emission c t = 0 → c ≠ t →
      (buildHMM corpus).E c t = smoothing / rowE (trainCounts corpus) c) ∧
    ((trainCounts corpus).emission c c = 0 →
      (buildHMM corpus).E c c = (5 + smoothing) / rowE (trainCounts corpus) c) := by
  have hboost : (0 : ℚ) ≤ if c = t then 5 else 0 := by split <;> norm_num
  have hcastT : (0 : ℚ) ≤ ((trainCounts corpus).transition c t : ℚ) := by positivity
  have hcastS : (0 : ℚ) ≤ ((trainCounts corpus).start c : ℚ) := by positivity
  have hcastE : (0 : ℚ) ≤ ((trainCounts corpus).emission c t : ℚ) := by positivity
  have hsm : (0 : ℚ) < smoothing := by rw [smoothing]; norm_num
  refine ⟨⟨?_, ?_, ?_⟩, ?_, ?_, ?_, ?_⟩
  · exact div_pos (by linarith) (rowT_pos (trainCounts corpus) c)
  · exact div_pos (by linarith) (rowS_pos (trainCounts corpus))
  · exact div_pos (by linarith) (rowE_pos (trainCounts corpus) c)
  · intro h
    show buildT (trainCounts corpus) c t = _
    unfold buildT
    rw [h, Nat.cast_zero, zero_add]
  · intro h
    show buildS (trainCounts corpus) c = _
    unfold buildS
    rw [h, Nat.cast_zero, zero_add]
  · intro h hne
    show buildE (trainCounts corpus) c t = _
    unfold buildE
    rw [h, Nat.cast_zero, if_neg hne, add_zero, zero_add]
  · intro h
    show buildE (trainCounts corpus) c c = _
    unfold buildE
    rw [h, Nat.cast_zero, if_pos rfl, zero_add]

theorem claim_c2_witness :
    ((trainCounts []).transition 'a' 'b' = 0 ∧ (trainCounts []).start 'a' = 0 ∧
     (trainCounts []).emission 'a' 'b' = 0 ∧ 'a' ≠ 'b' ∧
     (trainCounts []).emission 'a' 'a' = 0) ∧
    ((buildHMM []).T 'a' 'b' = smoothing / rowT (trainCounts []) 'a' ∧
     (buildHMM []).start 'a' = smoothing / rowS (trainCounts []) ∧
     (buildHMM []).E 'a' 'b' = smoothing / rowE (trainCounts []) 'a' ∧
     (buildHMM []).E 'a' 'a' = (5 + smoothing) / rowE (trainCounts []) 'a') :=
  ⟨⟨rfl, rfl, rfl, by decide, rfl⟩,
    (claim_c2 [] 'a' 'b').2.1 rfl,
    (claim_c2 [] 'a' 'b').2.2.1 rfl,
    (claim_c2 [] 'a' 'b').2.2.2.1 rfl (by decide),
    (claim_c2 [] 'a' 'a').2.2.2.2 rfl⟩

/-- Claim C2 is false as stated: the diagonal pair `('a','a')` has zero
training count on the empty corpus, yet its emission probability is
`(5 + α) / total = 167/9`, not the smoothing floor `α / total = 1/27`. -/
theorem claim_c2_counterexample :
    (trainCounts []).emission 'a' 'a' = 0 ∧
    (buildHMM []).E 'a' 'a' ≠ smoothing / rowE (trainCounts []) 'a' := by
  refine ⟨rfl, ?_⟩
  have hrow : rowE (trainCounts []) 'a' = 27 / 100 := by
    unfold rowE
    have hz : (alphabet.map (fun t => ((trainCounts []).emission 'a' t : ℚ))).sum
        = 0 := by
      simp [trainCounts, initCounts]
    rw [hz, alphabet_length, smoothing]
    norm_num
  have h1 : (buildHMM []).E 'a' 'a' = 167 / 9 := by
    show buildE (trainCounts []) 'a' 'a' = 167 / 9
    unfold buildE
    rw [hrow, if_pos rfl,
      show ((trainCounts []).emission 'a' 'a' : ℚ) = 0 by
        simp [trainCounts, initCounts],
      smoothing]
    norm_num
  have h2 : smoothing / rowE (trainCounts []) 'a' = 1 / 27 := by
    rw [hrow, smoothing]
    norm_num
  rw [h1, h2]
  norm_num

/-- Claim C4: the diagonal bonus of 5 is added to the raw diagonal count
exactly once, before smoothing, so `E[s][s] = (raw + 5 + α) / total`;
off-diagonal entries get no bonus. -/
theorem claim_c4 (corpus : List (String × List String)) (s t : Char) :
    (buildHMM corpus).E s s
      = (((trainCounts corpus).emission s s : ℚ) + 5 + smoothing)
          / rowE (trainCounts corpus) s ∧
    (s ≠ t → (buildHMM corpus).E s t
      = (((trainCounts corpus).emission s t : ℚ) + smoothing)
          / rowE (trainCounts corpus) s) := by
  constructor
  · show buildE (trainCounts corpus) s s = _
    unfold buildE
    rw [if_pos rfl]
  · intro h
    show buildE (trainCounts corpus) s t = _
    unfold buildE
    rw [if_neg h, add_zero]

theorem claim_c4_witness :
    'a' ≠ 'b' ∧
    ((buildHMM []).E 'a' 'a'
       = (((trainCounts []).emission 'a' 'a' : ℚ) + 5 + smoothing)
           / rowE (trainCounts []) 'a' ∧
     (buildHMM []).E 'a' 'b'
       = (((trainCounts []).emission 'a' 'b' : ℚ) + smoothing)
           / rowE (trainCounts []) 'a') :=
  ⟨by decide, (claim_c4 [] 'a' 'b').1, (claim_c4 [] 'a' 'b').2 (by decide)⟩

/-- Claim C5: an entry whose filtered correct word is empty contributes
no counts; transition and start counts do not depend on the typo list;
and typos whose filtered length differs from the filtered correct
word's contribute no emission counts. -/
theorem claim_c5 (st : Counts) (w : String) (typos : List String) :
    (filterAlpha w = [] → processEntry st w typos = st) ∧
    ((processEntry st w typos).transition = (processEntry st w []).transition ∧
     (processEntry st w typos).start = (processEntry st w []).start) ∧
    (processEntry st w typos).emission
      = (processEntry st w (typos.filter
          (fun ty =>
            decide ((filterAlpha w).length = (filterAlpha ty).length)))).emission := by
  rcases h : filterAlpha w with - | ⟨c, rest⟩
  · refine ⟨fun _ => ?_, ⟨?_, ?_⟩, ?_⟩ <;> simp [processEntry, h]
  · refine ⟨fun habs => (List.cons_ne_nil c rest habs).elim, ⟨?_, ?_⟩, ?_⟩
    · simp [processEntry, h]
    · simp [processEntry, h]
    · simp only [processEntry, h]
      rw [foldl_addTypo_filter (c :: rest) st.emission typos]

theorem claim_c5_witness :
    filterAlpha "9" = [] ∧ processEntry initCounts "9" ["ab"] = initCounts :=
  ⟨by decide, (claim_c5 initCounts "9" ["ab"]).1 (by decide)⟩

/-! ## The first-maximum scans of the Viterbi loops -/

section Scan

variable {α : Type} [LinearOrder α]

lemma pickMax_cons (f : Char → α) (i : α × Option Char) (x : Char)
    (l : List Char) :
    pickMax f i (x :: l)
      = pickMax f (if i.1 < f x then (f x, some x) else i) l := rfl

/-- If nothing beats the accumulator, the scan leaves it unchanged. -/
lemma pickMax_of_le (f : Char → α) (i : α × Option Char) (l : List Char)
    (h : ∀ x ∈ l, f x ≤ i.1) : pickMax f i l = i := by
  induction l generalizing i with
  | nil => rfl
  | cons x xs ih =>
    rw [pickMax_cons, if_neg (not_lt.mpr (h x (List.mem_cons_self ..)))]
    exact ih i (fun y hy => h y (List.mem_cons_of_mem _ hy))

lemma pickMax_head_max (f : Char → α) (i : α × Option Char) (x : Char)
    (l : List Char) (hx : i.1 < f x) (h : ∀ y ∈ l, f y ≤ f x) :
    pickMax f i (x :: l) = (f x, some x) := by
  rw [pickMax_cons, if_pos hx]
  exact pickMax_of_le f (f x, some x) l h

/-- Full characterization of the strict-improvement scan: either no
element beats the accumulator and it is returned unchanged, or the
result is the first element attaining the overall maximum, with every
earlier element strictly below it. -/
lemma pickMax_spec (f : Char → α) (l : List Char) : ∀ i : α × Option Char,
    (pickMax f i l = i ∧ ∀ x ∈ l, f x ≤ i.1) ∨
    (∃ l₁ x₀ l₂, l = l₁ ++ x₀ :: l₂ ∧ pickMax f i l = (f x₀, some x₀) ∧
      i.1 < f x₀ ∧ (∀ y ∈ l₁, f y < f x₀) ∧ (∀ y ∈ l₂, f y ≤ f x₀)) := by
  induction l with
  | nil => exact fun i => Or.inl ⟨rfl, by simp⟩
  | cons x xs ih =>
    intro i
    by_cases hx : i.1 < f x
    · rw [pickMax_cons, if_pos hx]
      rcases ih (f x, some x) with ⟨heq, hall⟩ | ⟨l₁, x₀, l₂, hdec, heq, hlt, hbef, haft⟩
      · exact Or.inr ⟨[], x, xs, rfl, heq, hx, by simp, fun y hy => hall y hy⟩
      · refine Or.inr ⟨x :: l₁, x₀, l₂, by rw [hdec]; rfl, heq,
          lt_trans hx hlt, ?_, haft⟩
        intro y hy
        rcases List.mem_cons.mp hy with rfl | hy'
        · exact hlt
        · exact hbef y hy'
    · rw [pickMax_cons, if_neg hx]
      rcases ih i with ⟨heq, hall⟩ | ⟨l₁, x₀, l₂, hdec, heq, hlt, hbef, haft⟩
      · refine Or.inl ⟨heq, ?_⟩
        intro y hy
        rcases List.mem_cons.mp hy with rfl | hy'
        · exact not_lt.mp hx
        · exact hall y hy'
      · refine Or.inr ⟨x :: l₁, x₀, l₂, by rw [hdec]; rfl, heq, hlt, ?_, haft⟩
        intro y hy
        rcases List.mem_cons.mp hy with rfl | hy'
        · exact lt_of_le_of_lt (not_lt.mp hx) hlt
        · exact hbef y hy'

lemma maxKey_cons (f : Char → α) (c0 x : Char) (l : List Char) :
    maxKey f c0 (x :: l) = maxKey f (if f c0 < f x then x else c0) l := rfl

lemma maxKey_of_le (f : Char → α) (c0 : Char) (l : List Char)
    (h : ∀ x ∈ l, f x ≤ f c0) : maxKey f c0 l = c0 := by
  induction l with
  | nil => rfl
  | cons x xs ih =>
    rw [maxKey_cons, if_neg (not_lt.mpr (h x (List.mem_cons_self ..)))]
    exact ih (fun y hy => h y (List.mem_cons_of_mem _ hy))

/-- Same characterization for Python's `max(..., key=f)` scan. -/
lemma maxKey_spec (f : Char → α) (l : List Char) : ∀ c0 : Char,
    (maxKey f c0 l = c0 ∧ ∀ x ∈ l, f x ≤ f c0) ∨
    (∃ l₁ x₀ l₂, l = l₁ ++ x₀ :: l₂ ∧ maxKey f c0 l = x₀ ∧ f c0 < f x₀ ∧
      (∀ y ∈ l₁, f y < f x₀) ∧ (∀ y ∈ l₂, f y ≤ f x₀)) := by
  induction l with
  | nil => exact fun c0 => Or.inl ⟨rfl, by simp⟩
  | cons x xs ih =>
    intro c0
    by_cases hx : f c0 < f x
    · rw [maxKey_cons, if_pos hx]
      rcases ih x with ⟨heq, hall⟩ | ⟨l₁, x₀, l₂, hdec, heq, hlt, hbef, haft⟩
      · exact Or.inr ⟨[], x, xs, rfl, heq, hx, by simp, hall⟩
      · refine Or.inr ⟨x :: l₁, x₀, l₂, by rw [hdec]; rfl, heq,
          lt_trans hx hlt, ?_, haft⟩
        intro y hy
        rcases List.mem_cons.mp hy with rfl | hy'
        · exact hlt
        · exact hbef y hy'
    · rw [maxKey_cons, if_neg hx]
      rcases ih c0 with ⟨heq, hall⟩ | ⟨l₁, x₀, l₂, hdec, heq, hlt, hbef, haft⟩
      · refine Or.inl ⟨heq, ?_⟩
        intro y hy
        rcases List.mem_cons.mp hy with rfl | hy'
        · exact not_lt.mp hx
        · exact hall y hy'
      · refine Or.inr ⟨x :: l₁, x₀, l₂, by rw [hdec]; rfl, heq, hlt, ?_, haft⟩
        intro y hy
        rcases List.mem_cons.mp hy with rfl | hy'
        · exact lt_of_le_of_lt (not_lt.mp hx) hlt
        · exact hbef y hy'

/-- An element of a decomposition's context bounds the whole list. -/
lemma le_of_decomp (f : Char → α) {l₁ l₂ : List Char} {x₀ : Char}
    (hdec : alphabet = l₁ ++ x₀ :: l₂) (hbef : ∀ y ∈ l₁, f y < f x₀)
    (haft : ∀ y ∈ l₂, f y ≤ f x₀) : ∀ p ∈ alphabet, f p ≤ f x₀ := by
  intro p hp
  rw [hdec] at hp
  rcases List.mem_append.mp hp with h1 | h2
  · exact le_of_lt (hbef p h1)
  · rcases List.mem_cons.mp h2 with rfl | h3
    · exact le_refl _
    · exact haft p h3

lemma alphabet_eq_cons : alphabet = 'a' :: alphabet.tail := by decide

/-- The termination scan of line 156, characterized as the first
maximum over the alphabet, starting from the first key `'a'`. -/
lemma maxKeyAll_spec (f : Char → α) :
    ∃ l₁ c₀ l₂, alphabet = l₁ ++ c₀ :: l₂ ∧ maxKeyAll f = c₀ ∧
      (∀ y ∈ l₁, f y < f c₀) ∧ (∀ y ∈ alphabet, f y ≤ f c₀) := by
  rcases maxKey_spec f alphabet.tail 'a' with ⟨heq, hall⟩ |
    ⟨l₁, x₀, l₂, hdec, heq, hlt, hbef, haft⟩
  · refine ⟨[], 'a', alphabet.tail, by rw [alphabet_eq_cons]; rfl, heq, by simp, ?_⟩
    intro y hy
    rw [alphabet_eq_cons] at hy
    rcases List.mem_cons.mp hy with rfl | hy'
    · exact le_refl _
    · exact hall y hy'
  · have hdec' : alphabet = ('a' :: l₁) ++ x₀ :: l₂ := by
      rw [alphabet_eq_cons, hdec]; rfl
    refine ⟨'a' :: l₁, x₀, l₂, hdec', heq, ?_, ?_⟩
    · intro y hy
      rcases List.mem_cons.mp hy with rfl | hy'
      · exact hlt
      · exact hbef y hy'
    · refine le_of_decomp f hdec' ?_ haft
      intro y hy
      rcases List.mem_cons.mp hy with rfl | hy'
      · exact hlt
      · exact hbef y hy'

lemma maxKeyAll_mem (f : Char → α) : maxKeyAll f ∈ alphabet := by
  obtain ⟨l₁, c₀, l₂, hdec, heq, -, -⟩ := maxKeyAll_spec f
  rw [heq, hdec]
  exact List.mem_append.mpr (Or.inr (List.mem_cons_self ..))

end Scan

/-! ## Structure of the decoder -/

section ViterbiLemmas

variable {α : Type} [LinearOrder α] [Add α] (lz : α) (lg : α → α) (m : HMMg α)
  (O : List Char)

lemma vM_zero (s : Char) :
    vM lz lg m O 0 s = lg (m.start s) + lg (m.E s (O.getD 0 'a')) := rfl

lemma vM_succ (t : ℕ) (s : Char) :
    vM lz lg m O (t + 1) s
      = (pickMax (vVal lg m (vM lz lg m O t) s (O.getD (t + 1) 'a'))
          (lz, none) alphabet).1 := rfl

lemma vBP_succ (t : ℕ) (s : Char) :
    vBP lz lg m O (t + 1) s
      = (pickMax (vVal lg m (vM lz lg m O t) s (O.getD (t + 1) 'a'))
          (lz, none) alphabet).2 := rfl

lemma backtrack_zero (b : Char) : backtrack lz lg m O 0 b = some [b] := rfl

lemma backtrack_succ (t : ℕ) (b : Char) :
    backtrack lz lg m O (t + 1) b
      = match vBP lz lg m O (t + 1) b with
        | none => none
        | some p => (backtrack lz lg m O t p).map (fun path => path ++ [b]) := rfl

/-- A recorded backpointer is always an alphabet symbol. -/
lemma vBP_some_mem {t : ℕ} {s p : Char}
    (h : vBP lz lg m O (t + 1) s = some p) : p ∈ alphabet := by
  rw [vBP_succ] at h
  rcases pickMax_spec (vVal lg m (vM lz lg m O t) s (O.getD (t + 1) 'a'))
      alphabet (lz, none) with ⟨heq, -⟩ | ⟨l₁, x₀, l₂, hdec, heq, -, -, -⟩
  · rw [heq] at h
    cases h
  · rw [heq] at h
    obtain rfl : x₀ = p := by simpa using h
    rw [hdec]
    exact List.mem_append.mpr (Or.inr (List.mem_cons_self ..))

/-- If some candidate beats the sentinel, a backpointer is recorded. -/
lemma vBP_stall_some (t : ℕ) (s : Char)
    (h : ∃ p ∈ alphabet,
      lz < vVal lg m (vM lz lg m O t) s (O.getD (t + 1) 'a') p) :
    ∃ p₀ ∈ alphabet, vBP lz lg m O (t + 1) s = some p₀ := by
  rcases pickMax_spec (vVal lg m (vM lz lg m O t) s (O.getD (t + 1) 'a'))
      alphabet (lz, none) with ⟨-, hall⟩ | ⟨l₁, x₀, l₂, hdec, heq, -, -, -⟩
  · obtain ⟨p, hp, hlt⟩ := h
    exact absurd (hall p hp) (not_le.mpr hlt)
  · refine ⟨x₀, ?_, ?_⟩
    · rw [hdec]
      exact List.mem_append.mpr (Or.inr (List.mem_cons_self ..))
    · rw [vBP_succ, heq]

/-- A successful backtrack from an alphabet symbol yields `t + 1`
alphabet symbols. -/
lemma backtrack_mem (t : ℕ) : ∀ b : Char, b ∈ alphabet →
    ∀ l, backtrack lz lg m O t b = some l →
    (∀ c ∈ l, c ∈ alphabet) ∧ l.length = t + 1 := by
  induction t with
  | zero =>
    intro b hb l h
    rw [backtrack_zero] at h
    obtain rfl : [b] = l := Option.some.inj h
    refine ⟨?_, by simp⟩
    intro c hc
    obtain rfl : c = b := List.mem_singleton.mp hc
    exact hb
  | succ t ih =>
    intro b hb l h
    rw [backtrack_succ] at h
    cases hbp : vBP lz lg m O (t + 1) b with
    | none =>
      rw [hbp] at h
      cases h
    | some p =>
      rw [hbp] at h
      obtain ⟨l', hl', hfa⟩ := Option.map_eq_some'.mp h
      have hp : p ∈ alphabet := vBP_some_mem lz lg m O hbp
      obtain ⟨hmem, hlen⟩ := ih p hp l' hl'
      subst hfa
      refine ⟨?_, by simp [hlen]⟩
      intro c hc
      rcases List.mem_append.mp hc with h1 | h2
      · exact hmem c h1
      · obtain rfl : c = b := List.mem_singleton.mp h2
        exact hb

/-- If every recursion step up to `T` beats the sentinel, backtracking
from any alphabet symbol succeeds. -/
lemma backtrack_total (T : ℕ)
    (hsf : ∀ k, k < T → ∀ s ∈ alphabet, ∃ p ∈ alphabet,
      lz < vVal lg m (vM lz lg m O k) s (O.getD (k + 1) 'a') p) :
    ∀ b ∈ alphabet, ∃ l, backtrack lz lg m O T b = some l := by
  induction T with
  | zero => exact fun b _ => ⟨[b], backtrack_zero lz lg m O b⟩
  | succ T ih =>
    intro b hb
    obtain ⟨p₀, hp₀, hbp⟩ :=
      vBP_stall_some lz lg m O T b (hsf T (Nat.lt_succ_self T) b hb)
    obtain ⟨l, hl⟩ := ih (fun k hk => hsf k (Nat.lt_succ_of_lt hk)) p₀ hp₀
    refine ⟨l ++ [b], ?_⟩
    rw [backtrack_succ, hbp]
    show (backtrack lz lg m O T p₀).map (fun path => path ++ [b]) = some (l ++ [b])
    rw [hl]
    rfl

lemma viterbi_of_ne (w : String) (h : obsOf w ≠ []) :
    viterbi lz lg m w
      = (backtrack lz lg m (obsOf w) ((obsOf w).length - 1)
          (maxKeyAll (vM lz lg m (obsOf w) ((obsOf w).length - 1)))).map
          String.mk := by
  unfold viterbi
  rw [if_neg h]

lemma viterbi_of_nil (w : String) (h : obsOf w = []) :
    viterbi lz lg m w = some w := by
  unfold viterbi
  rw [if_pos h]

end ViterbiLemmas

/-! ## The real-score pipeline -/

lemma LOG_ZERO_lt_zero : LOG_ZERO < 0 := by
  unfold LOG_ZERO
  norm_num

lemma safeLog_one : safeLog 1 = 0 := by
  unfold safeLog
  rw [if_neg (by norm_num), Real.log_one]

lemma safeLog_exp (x : ℝ) : safeLog (Real.exp x) = x := by
  unfold safeLog
  rw [if_neg (not_le.mpr (Real.exp_pos x)), Real.log_exp]

lemma mOnes_vM_zero (O : List Char) (s : Char) :
    vM LOG_ZERO safeLog mOnes O 0 s = 0 := by
  rw [vM_zero]
  show safeLog 1 + safeLog 1 = 0
  rw [safeLog_one]
  norm_num

lemma mOnes_vVal (O : List Char) (s o p : Char) :
    vVal safeLog mOnes (vM LOG_ZERO safeLog mOnes O 0) s o p = 0 := by
  unfold vVal
  rw [mOnes_vM_zero]
  show (0 : ℝ) + safeLog 1 + safeLog 1 = 0
  rw [safeLog_one]
  norm_num

lemma mOnes_pick (O : List Char) (s : Char) :
    pickMax (vVal safeLog mOnes (vM LOG_ZERO safeLog mOnes O 0) s (O.getD 1 'a'))
      (LOG_ZERO, none) alphabet = (0, some 'a') := by
  rw [alphabet_eq_cons]
  have h := pickMax_head_max
    (vVal safeLog mOnes (vM LOG_ZERO safeLog mOnes O 0) s (O.getD 1 'a'))
    (LOG_ZERO, none) 'a' alphabet.tail
    (by rw [mOnes_vVal]; exact LOG_ZERO_lt_zero)
    (by intro y hy; rw [mOnes_vVal, mOnes_vVal])
  rw [h, mOnes_vVal]

lemma mOnes_vM_one (O : List Char) (s : Char) :
    vM LOG_ZERO safeLog mOnes O 1 s = 0 := by
  rw [vM_succ, mOnes_pick]

lemma mOnes_vBP_one (O : List Char) (s : Char) :
    vBP LOG_ZERO safeLog mOnes O 1 s = some 'a' := by
  rw [vBP_succ, mOnes_pick]

lemma mOnes_best (O : List Char) :
    maxKeyAll (vM LOG_ZERO safeLog mOnes O 1) = 'a' := by
  unfold maxKeyAll
  apply maxKey_of_le
  intro x hx
  rw [mOnes_vM_one, mOnes_vM_one]

lemma obs_ab : obsOf "ab" = ['a', 'b'] := by decide

/-- The all-ones model decodes "ab" to "aa" (every score ties at 0 and
the first-maximum rule picks `'a'` everywhere). -/
lemma mOnes_viterbi_ab : viterbiR mOnes "ab" = some "aa" := by
  rw [viterbiR, viterbi_of_ne LOG_ZERO safeLog mOnes "ab" (by decide), obs_ab]
  show (backtrack LOG_ZERO safeLog mOnes ['a', 'b'] 1
    (maxKeyAll (vM LOG_ZERO safeLog mOnes ['a', 'b'] 1))).map String.mk
      = some "aa"
  rw [mOnes_best, backtrack_succ, mOnes_vBP_one]
  show ((backtrack LOG_ZERO safeLog mOnes ['a', 'b'] 0 'a').map
    (fun path => path ++ ['a'])).map String.mk = some "aa"
  rw [backtrack_zero]
  rfl

lemma mTiny_vM_zero (O : List Char) (s : Char) :
    vM LOG_ZERO safeLog mTiny O 0 s = LOG_ZERO + LOG_ZERO := by
  rw [vM_zero]
  show safeLog (Real.exp LOG_ZERO) + safeLog (Real.exp LOG_ZERO) = _
  rw [safeLog_exp]

lemma mTiny_vVal (O : List Char) (s o p : Char) :
    vVal safeLog mTiny (vM LOG_ZERO safeLog mTiny O 0) s o p
      = LOG_ZERO + LOG_ZERO + LOG_ZERO + LOG_ZERO := by
  unfold vVal
  rw [mTiny_vM_zero]
  show LOG_ZERO + LOG_ZERO + safeLog (Real.exp LOG_ZERO)
    + safeLog (Real.exp LOG_ZERO) = _
  rw [safeLog_exp]

/-- In `mTiny` every recursion candidate is `4·(-1e9)`, which never
beats the sentinel the accumulator starts from: the scan stalls. -/
lemma mTiny_pick (O : List Char) (s : Char) :
    pickMax (vVal safeLog mTiny (vM LOG_ZERO safeLog mTiny O 0) s (O.getD 1 'a'))
      (LOG_ZERO, none) alphabet = (LOG_ZERO, none) := by
  apply pickMax_of_le
  intro x hx
  rw [mTiny_vVal]
  show LOG_ZERO + LOG_ZERO + LOG_ZERO + LOG_ZERO ≤ LOG_ZERO
  unfold LOG_ZERO
  norm_num

lemma mTiny_vM_one (O : List Char) (s : Char) :
    vM LOG_ZERO safeLog mTiny O 1 s = LOG_ZERO := by
  rw [vM_succ, mTiny_pick]

lemma mTiny_vBP_one (O : List Char) (s : Char) :
    vBP LOG_ZERO safeLog mTiny O 1 s = none := by
  rw [vBP_succ, mTiny_pick]

/-- On "ab", decoding with `mTiny` follows a `None` backpointer and
raises: the embedded decoder returns `none`. -/
lemma mTiny_viterbi_ab : viterbiR mTiny "ab" = none := by
  rw [viterbiR, viterbi_of_ne LOG_ZERO safeLog mTiny "ab" (by decide), obs_ab]
  show (backtrack LOG_ZERO safeLog mTiny ['a', 'b'] 1
    (maxKeyAll (vM LOG_ZERO safeLog mTiny ['a', 'b'] 1))).map String.mk = none
  rw [backtrack_succ, mTiny_vBP_one]
  rfl

/-! ## Claims about the decoder (C3, C6, C7, C9, C10) -/

/-- Claim C3, amended.  At any recursion step whose candidate maximum
beats the `LOG_ZERO` sentinel, the stored score is the maximum of all
candidate values, the backpointer is the first previous symbol (in
alphabet order) attaining it, and — unconditionally — the final
decoded symbol is the first symbol attaining the maximum final score.
Without the sentinel hypothesis the stored score can be the sentinel
itself with no backpointer recorded (see the counterexample). -/
theorem claim_c3 (m : HMMg ℝ) (w : String) (t : ℕ) (s : Char)
    (_ht : t + 1 < (obsOf w).length) (_hs : s ∈ alphabet)
    (hstall : ∃ p ∈ alphabet, LOG_ZERO <
      vVal safeLog m (vM LOG_ZERO safeLog m (obsOf w) t) s
        ((obsOf w).getD (t + 1) 'a') p) :
    (∀ p ∈ alphabet,
      vVal safeLog m (vM LOG_ZERO safeLog m (obsOf w) t) s
          ((obsOf w).getD (t + 1) 'a') p
        ≤ vM LOG_ZERO safeLog m (obsOf w) (t + 1) s) ∧
    (∃ l₁ p₀ l₂, alphabet = l₁ ++ p₀ :: l₂ ∧
      vBP LOG_ZERO safeLog m (obsOf w) (t + 1) s = some p₀ ∧
      vM LOG_ZERO safeLog m (obsOf w) (t + 1) s
        = vVal safeLog m (vM LOG_ZERO safeLog m (obsOf w) t) s
            ((obsOf w).getD (t + 1) 'a') p₀ ∧
      (∀ q ∈ l₁,
        vVal safeLog m (vM LOG_ZERO safeLog m (obsOf w) t) s
            ((obsOf w).getD (t + 1) 'a') q
          < vVal safeLog m (vM LOG_ZERO safeLog m (obsOf w) t) s
              ((obsOf w).getD (t + 1) 'a') p₀) ∧
      (∀ q ∈ l₂,
        vVal safeLog m (vM LOG_ZERO safeLog m (obsOf w) t) s
            ((obsOf w).getD (t + 1) 'a') q
          ≤ vVal safeLog m (vM LOG_ZERO safeLog m (obsOf w) t) s
              ((obsOf w).getD (t + 1) 'a') p₀)) ∧
    (∃ l₁ c₀ l₂, alphabet = l₁ ++ c₀ :: l₂ ∧
      maxKeyAll (vM LOG_ZERO safeLog m (obsOf w) ((obsOf w).length - 1)) = c₀ ∧
      (∀ q ∈ l₁,
        vM LOG_ZERO safeLog m (obsOf w) ((obsOf w).length - 1) q
          < vM LOG_ZERO safeLog m (obsOf w) ((obsOf w).length - 1) c₀) ∧
      (∀ q ∈ alphabet,
        vM LOG_ZERO safeLog m (obsOf w) ((obsOf w).length - 1) q
          ≤ vM LOG_ZERO safeLog m (obsOf w) ((obsOf w).length - 1) c₀)) := by
  rcases pickMax_spec
      (vVal safeLog m (vM LOG_ZERO safeLog m (obsOf w) t) s
        ((obsOf w).getD (t + 1) 'a'))
      alphabet (LOG_ZERO, none) with ⟨-, hall⟩ |
      ⟨l₁, x₀, l₂, hdec, heq, -, hbef, haft⟩
  · obtain ⟨p, hp, hlt⟩ := hstall
    exact absurd (hall p hp) (not_le.mpr hlt)
  · have hM : vM LOG_ZERO safeLog m (obsOf w) (t + 1) s
        = vVal safeLog m (vM LOG_ZERO safeLog m (obsOf w) t) s
            ((obsOf w).getD (t + 1) 'a') x₀ := by
      rw [vM_succ, heq]
    have hBP : vBP LOG_ZERO safeLog m (obsOf w) (t + 1) s = some x₀ := by
      rw [vBP_succ, heq]
    refine ⟨?_, ⟨l₁, x₀, l₂, hdec, hBP, hM, hbef, haft⟩, ?_⟩
    · intro p hp
      rw [hM]
      exact le_of_decomp _ hdec hbef haft p hp
    · exact maxKeyAll_spec
        (vM LOG_ZERO safeLog m (obsOf w) ((obsOf w).length - 1))

theorem claim_c3_witness :
    (0 + 1 < (obsOf "ab").length ∧ 'a' ∈ alphabet ∧
      ∃ p ∈ alphabet, LOG_ZERO <
        vVal safeLog mOnes (vM LOG_ZERO safeLog mOnes (obsOf "ab") 0) 'a'
          ((obsOf "ab").getD 1 'a') p) ∧
    ((∀ p ∈ alphabet,
      vVal safeLog mOnes (vM LOG_ZERO safeLog mOnes (obsOf "ab") 0) 'a'
          ((obsOf "ab").getD 1 'a') p
        ≤ vM LOG_ZERO safeLog mOnes (obsOf "ab") 1 'a') ∧
    (∃ l₁ p₀ l₂, alphabet = l₁ ++ p₀ :: l₂ ∧
      vBP LOG_ZERO safeLog mOnes (obsOf "ab") 1 'a' = some p₀ ∧
      vM LOG_ZERO safeLog mOnes (obsOf "ab") 1 'a'
        = vVal safeLog mOnes (vM LOG_ZERO safeLog mOnes (obsOf "ab") 0) 'a'
            ((obsOf "ab").getD 1 'a') p₀ ∧
      (∀ q ∈ l₁,
        vVal safeLog mOnes (vM LOG_ZERO safeLog mOnes (obsOf "ab") 0) 'a'
            ((obsOf "ab").getD 1 'a') q
          < vVal safeLog mOnes (vM LOG_ZERO safeLog mOnes (obsOf "ab") 0) 'a'
              ((obsOf "ab").getD 1 'a') p₀) ∧
      (∀ q ∈ l₂,
        vVal safeLog mOnes (vM LOG_ZERO safeLog mOnes (obsOf "ab") 0) 'a'
            ((obsOf "ab").getD 1 'a') q
          ≤ vVal safeLog mOnes (vM LOG_ZERO safeLog mOnes (obsOf "ab") 0) 'a'
              ((obsOf "ab").getD 1 'a') p₀)) ∧
    (∃ l₁ c₀ l₂, alphabet = l₁ ++ c₀ :: l₂ ∧
      maxKeyAll (vM LOG_ZERO safeLog mOnes (obsOf "ab") ((obsOf "ab").length - 1))
        = c₀ ∧
      (∀ q ∈ l₁,
        vM LOG_ZERO safeLog mOnes (obsOf "ab") ((obsOf "ab").length - 1) q
          < vM LOG_ZERO safeLog mOnes (obsOf "ab") ((obsOf "ab").length - 1) c₀) ∧
      (∀ q ∈ alphabet,
        vM LOG_ZERO safeLog mOnes (obsOf "ab") ((obsOf "ab").length - 1) q
          ≤ vM LOG_ZERO safeLog mOnes (obsOf "ab") ((obsOf "ab").length - 1) c₀))) := by
  have hstall : ∃ p ∈ alphabet, LOG_ZERO <
      vVal safeLog mOnes (vM LOG_ZERO safeLog mOnes (obsOf "ab") 0) 'a'
        ((obsOf "ab").getD 1 'a') p := by
    refine ⟨'a', by decide, ?_⟩
    rw [mOnes_vVal]
    exact LOG_ZERO_lt_zero
  exact ⟨⟨by decide, by decide, hstall⟩,
    claim_c3 mOnes "ab" 0 'a' (by decide) (by decide) hstall⟩

/-- Claim C3 is false as stated: with the model `mTiny` (all
probabilities `exp(-1e9)`, all positive) on input "ab", at time 1 and
state `'a'` every candidate value is `4·(-1e9)`, so the stored score
`-1e9`, inherited from the loop's sentinel start, equals none of the
candidates (it is not their maximum), and no backpointer is recorded. -/
theorem claim_c3_counterexample :
    vBP LOG_ZERO safeLog mTiny (obsOf "ab") 1 'a' = none ∧
    ∀ p ∈ alphabet,
      vM LOG_ZERO safeLog mTiny (obsOf "ab") 1 'a'
        ≠ vVal safeLog mTiny (vM LOG_ZERO safeLog mTiny (obsOf "ab") 0) 'a'
            ((obsOf "ab").getD 1 'a') p := by
  refine ⟨mTiny_vBP_one (obsOf "ab") 'a', ?_⟩
  intro p hp
  rw [mTiny_vM_one, mTiny_vVal]
  unfold LOG_ZERO
  norm_num

/-- Claim C6, amended.  If the filtered input is non-empty and every
recursion step's candidate maximum beats the `LOG_ZERO` sentinel
(`StallFree` — true in particular whenever scores stay above `-1e9`),
decoding returns a string whose length equals the filtered length.
Without the sentinel condition the decoder can raise instead of
returning a string (see the counterexample). -/
theorem claim_c6 (m : HMMg ℝ) (w : String) (hO : obsOf w ≠ [])
    (hsf : StallFree LOG_ZERO safeLog m (obsOf w)) :
    ∃ r, viterbiR m w = some r ∧ r.length = (obsOf w).length := by
  have hlen : 0 < (obsOf w).length := List.length_pos.mpr hO
  have hbest := maxKeyAll_mem
    (vM LOG_ZERO safeLog m (obsOf w) ((obsOf w).length - 1))
  obtain ⟨l, hl⟩ := backtrack_total LOG_ZERO safeLog m (obsOf w)
    ((obsOf w).length - 1) (fun k hk => hsf k (by omega)) _ hbest
  obtain ⟨-, hlen'⟩ := backtrack_mem LOG_ZERO safeLog m (obsOf w)
    ((obsOf w).length - 1) _ hbest l hl
  refine ⟨String.mk l, ?_, ?_⟩
  · rw [viterbiR, viterbi_of_ne LOG_ZERO safeLog m w hO, hl]
    rfl
  · show l.length = (obsOf w).length
    omega

theorem claim_c6_witness :
    (obsOf "ab" ≠ [] ∧ StallFree LOG_ZERO safeLog mOnes (obsOf "ab")) ∧
    ∃ r, viterbiR mOnes "ab" = some r ∧ r.length = (obsOf "ab").length := by
  have h2 : StallFree LOG_ZERO safeLog mOnes (obsOf "ab") := by
    intro t ht s hs
    rw [obs_ab] at ht
    have ht2 : t + 1 < 2 := by simpa using ht
    obtain rfl : t = 0 := by omega
    refine ⟨'a', by decide, ?_⟩
    rw [mOnes_vVal]
    exact LOG_ZERO_lt_zero
  exact ⟨⟨by decide, h2⟩, claim_c6 mOnes "ab" (by decide) h2⟩

/-- Claim C6 is false as stated: with the model `mTiny` (all
probabilities positive) the filtered input of "ab" has length 2, yet
decode raises while backtracking (modelled as `none`) — no string of
any length is returned. -/
theorem claim_c6_counterexample :
    obsOf "ab" = ['a', 'b'] ∧ viterbiR mTiny "ab" = none :=
  ⟨by decide, mTiny_viterbi_ab⟩

/-- Claim C7: when the filtered input is empty, decode returns the
original, unfiltered input unchanged — a defined fallback, not an
error. -/
theorem claim_c7 (m : HMMg ℝ) (w : String) (h : obsOf w = []) :
    viterbiR m w = some w := by
  rw [viterbiR]
  exact viterbi_of_nil LOG_ZERO safeLog m w h

theorem claim_c7_witness :
    obsOf "123" = [] ∧ viterbiR mOnes "123" = some "123" :=
  ⟨by decide, claim_c7 mOnes "123" (by decide)⟩

/-- Claim C9: `safe_log` is total — it returns the sentinel `-1e9` for
any `p ≤ 0` and the natural logarithm for `p > 0`, never raising. -/
theorem claim_c9 (p : ℝ) :
    (p ≤ 0 → safeLog p = -(10 ^ 9)) ∧ (0 < p → safeLog p = Real.log p) := by
  constructor
  · intro h
    unfold safeLog
    rw [if_pos h]
    rfl
  · intro h
    unfold safeLog
    rw [if_neg (not_le.mpr h)]

theorem claim_c9_witness :
    ((-1 : ℝ) ≤ 0 ∧ safeLog (-1) = -(10 ^ 9)) ∧
    ((0 : ℝ) < 2 ∧ safeLog 2 = Real.log 2) :=
  ⟨⟨by norm_num, (claim_c9 (-1)).1 (by norm_num)⟩,
    ⟨by norm_num, (claim_c9 2).2 (by norm_num)⟩⟩

/-- Claim C10: decode lowercases before filtering, so any string it
returns on a non-empty filtered input consists only of alphabet
symbols (all lowercase); and an all-uppercase input has its letters
lowercased — its filtered form is the lowercased word, which is
non-empty, so the fallback branch is not taken. -/
theorem claim_c10 :
    (∀ (m : HMMg ℝ) (w r : String), obsOf w ≠ [] → viterbiR m w = some r →
      ∀ c ∈ r.data, c ∈ alphabet) ∧
    (∀ w : String, w.data ≠ [] → (∀ c ∈ w.data, c ∈ upperLetters) →
      obsOf w = w.data.map Char.toLower ∧ obsOf w ≠ []) := by
  constructor
  · intro m w r hO hr c hc
    rw [viterbiR, viterbi_of_ne LOG_ZERO safeLog m w hO] at hr
    obtain ⟨l, hl, hmk⟩ := Option.map_eq_some'.mp hr
    have hbest := maxKeyAll_mem
      (vM LOG_ZERO safeLog m (obsOf w) ((obsOf w).length - 1))
    have hmem := (backtrack_mem LOG_ZERO safeLog m (obsOf w)
      ((obsOf w).length - 1) _ hbest l hl).1
    have hdata : r.data = l := by rw [← hmk]
    rw [hdata] at hc
    exact hmem c hc
  · intro w hw hup
    have hfact : ∀ d ∈ upperLetters, Char.toLower d ∈ alphabet := by decide
    have hall : ∀ c ∈ w.data.map Char.toLower, decide (c ∈ alphabet) = true := by
      intro c hc
      obtain ⟨d, hd, rfl⟩ := List.mem_map.mp hc
      exact decide_eq_true (hfact d (hup d hd))
    have hobs : obsOf w = w.data.map Char.toLower := by
      unfold obsOf
      exact List.filter_eq_self.mpr hall
    refine ⟨hobs, ?_⟩
    rw [hobs]
    intro hnil
    exact hw (List.map_eq_nil_iff.mp hnil)

theorem claim_c10_witness :
    (obsOf "ab" ≠ [] ∧ viterbiR mOnes "ab" = some "aa" ∧
      ∀ c ∈ ("aa" : String).data, c ∈ alphabet) ∧
    (("AB" : String).data ≠ [] ∧ (∀ c ∈ ("AB" : String).data, c ∈ upperLetters) ∧
      obsOf "AB" = ("AB" : String).data.map Char.toLower ∧ obsOf "AB" ≠ []) := by
  refine ⟨⟨by decide, mOnes_viterbi_ab,
    claim_c10.1 mOnes "ab" "aa" (by decide) mOnes_viterbi_ab⟩,
    by decide, by decide, claim_c10.2 "AB" (by decide) (by decide)⟩

/-! ## The sentence corrector (C8) -/

lemma foldl_decode_none {α : Type} [LinearOrder α] [Add α] (lz : α)
    (lg : α → α) (m : HMMg α) (ws : List String) :
    ws.foldl
      (fun a w => a.bind fun l => (viterbi lz lg m w).map (fun cw => l ++ [cw]))
      none = none := by
  induction ws with
  | nil => rfl
  | cons w rest ih => exact ih

/-- The word-by-word accumulation loop of `correct_sentence` is the
monadic map of `viterbi` over the word list. -/
lemma foldl_decode_mapM {α : Type} [LinearOrder α] [Add α] (lz : α)
    (lg : α → α) (m : HMMg α) (ws : List String) : ∀ acc : List String,
    ws.foldl
        (fun a w => a.bind fun l => (viterbi lz lg m w).map (fun cw => l ++ [cw]))
        (some acc)
      = (ws.mapM (viterbi lz lg m)).map (fun l => acc ++ l) := by
  induction ws with
  | nil =>
    intro acc
    show some acc = Option.map (fun l => acc ++ l) (some [])
    simp
  | cons w rest ih =>
    intro acc
    rw [List.foldl_cons, List.mapM_cons]
    cases h : viterbi lz lg m w with
    | none =>
      show List.foldl _ none rest = _
      rw [foldl_decode_none lz lg m rest]
      simp
    | some cw =>
      show List.foldl _ (some (acc ++ [cw])) rest = _
      rw [ih (acc ++ [cw])]
      cases hm : rest.mapM (viterbi lz lg m) with
      | none => simp
      | some cs => simp [List.append_assoc]

/-- Claim C8: `correct_sentence` equals decoding each
whitespace-delimited token independently, in order, and joining the
decoded tokens with single spaces. -/
theorem claim_c8 (m : HMMg ℝ) (text : String) :
    correctSentenceR m text
      = ((pyWords text).mapM (viterbiR m)).map
          (fun ws => String.intercalate " " ws) := by
  rw [correctSentenceR]
  unfold correctSentence viterbiR
  rw [foldl_decode_mapM LOG_ZERO safeLog m (pyWords text) []]
  cases hm : (pyWords text).mapM (viterbi LOG_ZERO safeLog m) with
  | none => simp
  | some ls => simp

end SpellFixer
